import Mathlib

/-!
Verification of the q2-demux Golay (24,12,8) barcode error-correction engine
and of the `ErrorCorrectionDetailsFmt` validation logic.

The repository ships the decoder's test-suite (`q2_demux/tests/test_ecc.py`)
and the format layer (`q2_demux/_format.py`).  The decoder module itself
(`q2_demux/_ecc.py`) is not part of the provided sources, so the decoder is
modelled from the specification; every such definition carries a doc comment
starting with the words used below.  The concrete generator/parity-check
constants and the nucleotide codon assignment, which the specification leaves
open, are the standard extended-Golay constants in systematic form; they were
validated against the repository's own test vectors (all 600 barcodes of
`test_ecc.py` are codewords of this code under this codon map, and all
concrete decode results demanded by the tests hold, as proved below).
-/

/-- Dot product of two integer vectors (`numpy.dot` on 1-d arrays). -/
def dot (x y : List Nat) : Nat := (List.zipWith (· * ·) x y).sum

/-- Matrix–vector product mod 2: each row of `M` dotted with `v`, reduced
mod 2.  This is the `dot(M, v) % 2` idiom of the specification. -/
def matVec (M : List (List Nat)) (v : List Nat) : List Nat :=
  M.map (fun r => dot r v % 2)

/-- Vector–matrix product mod 2 (`message · G mod 2` with 24 columns):
the sum of the rows of `M` scaled by the entries of `v`, reduced mod 2. -/
def vecMat (v : List Nat) (M : List (List Nat)) : List Nat :=
  ((List.zipWith (fun a r => r.map (a * ·)) v M).foldr
    (List.zipWith (· + ·)) (List.replicate 24 0)).map (· % 2)

/-- Hamming weight of a bit vector; the sources count errors with the sum of
the 0/1 error pattern, which agrees with the Hamming weight. -/
def weight (v : List Nat) : Nat := v.sum

/-- Pointwise XOR of two bit vectors, written `(u + v) % 2` as in the
sources and the specification. -/
def xorv (u v : List Nat) : List Nat := List.zipWith (fun a b => (a + b) % 2) u v

/-- Predicate: every entry of the list is a bit (0 or 1). -/
def IsBits (v : List Nat) : Prop := ∀ b ∈ v, b ≤ 1

instance : DecidablePred IsBits := fun v => List.decidableBAll _ v

/-- Modelled from the spec: the fixed 12×24 generator matrix `G`
(`GolayMatrices`).  The literal entries are not given by the specification;
this is the standard extended-Golay generator in systematic form `[I | B]`,
validated against the repository's test vectors. -/
def DEFAULT_G : List (List Nat) := [
  [1,0,0,0,0,0,0,0,0,0,0,0,0,1,1,1,1,1,1,1,1,1,1,1],
  [0,1,0,0,0,0,0,0,0,0,0,0,1,1,1,0,1,1,1,0,0,0,1,0],
  [0,0,1,0,0,0,0,0,0,0,0,0,1,1,0,1,1,1,0,0,0,1,0,1],
  [0,0,0,1,0,0,0,0,0,0,0,0,1,0,1,1,1,0,0,0,1,0,1,1],
  [0,0,0,0,1,0,0,0,0,0,0,0,1,1,1,1,0,0,0,1,0,1,1,0],
  [0,0,0,0,0,1,0,0,0,0,0,0,1,1,1,0,0,0,1,0,1,1,0,1],
  [0,0,0,0,0,0,1,0,0,0,0,0,1,1,0,0,0,1,0,1,1,0,1,1],
  [0,0,0,0,0,0,0,1,0,0,0,0,1,0,0,0,1,0,1,1,0,1,1,1],
  [0,0,0,0,0,0,0,0,1,0,0,0,1,0,0,1,0,1,1,0,1,1,1,0],
  [0,0,0,0,0,0,0,0,0,1,0,0,1,0,1,0,1,1,0,1,1,1,0,0],
  [0,0,0,0,0,0,0,0,0,0,1,0,1,1,0,1,1,0,1,1,1,0,0,0],
  [0,0,0,0,0,0,0,0,0,0,0,1,1,0,1,1,0,1,1,1,0,0,0,1]]

/-- Modelled from the spec: the fixed 12×24 parity-check matrix `H`
(`GolayMatrices`), the systematic companion `[B | I]` of `DEFAULT_G`. -/
def DEFAULT_H : List (List Nat) := [
  [0,1,1,1,1,1,1,1,1,1,1,1,1,0,0,0,0,0,0,0,0,0,0,0],
  [1,1,1,0,1,1,1,0,0,0,1,0,0,1,0,0,0,0,0,0,0,0,0,0],
  [1,1,0,1,1,1,0,0,0,1,0,1,0,0,1,0,0,0,0,0,0,0,0,0],
  [1,0,1,1,1,0,0,0,1,0,1,1,0,0,0,1,0,0,0,0,0,0,0,0],
  [1,1,1,1,0,0,0,1,0,1,1,0,0,0,0,0,1,0,0,0,0,0,0,0],
  [1,1,1,0,0,0,1,0,1,1,0,1,0,0,0,0,0,1,0,0,0,0,0,0],
  [1,1,0,0,0,1,0,1,1,0,1,1,0,0,0,0,0,0,1,0,0,0,0,0],
  [1,0,0,0,1,0,1,1,0,1,1,1,0,0,0,0,0,0,0,1,0,0,0,0],
  [1,0,0,1,0,1,1,0,1,1,1,0,0,0,0,0,0,0,0,0,1,0,0,0],
  [1,0,1,0,1,1,0,1,1,1,0,0,0,0,0,0,0,0,0,0,0,1,0,0],
  [1,1,0,1,1,0,1,1,1,0,0,0,0,0,0,0,0,0,0,0,0,0,1,0],
  [1,0,1,1,0,1,1,1,0,0,0,1,0,0,0,0,0,0,0,0,0,0,0,1]]

/-- Modelled from the spec: `encode(message) = message · G mod 2`
(`GolayDecoder.encode`, bit level). -/
def encode (m : List Nat) : List Nat := vecMat m DEFAULT_G

/-- Modelled from the spec: `syndrome = received · Hᵗ mod 2`. -/
def syndrome (u : List Nat) : List Nat := matVec DEFAULT_H u

/-- All bit vectors of length `n` and Hamming weight exactly `k`, enumerated
position by position. -/
def vecsW : Nat → Nat → List (List Nat)
  | 0, n => [List.replicate n 0]
  | _+1, 0 => []
  | k+1, n+1 => (vecsW (k+1) n).map (0 :: ·) ++ (vecsW k n).map (1 :: ·)

/-- Modelled from the spec: `_make_3bit_errors` — the enumeration of all
24-bit vectors of Hamming weight 0, 1, 2 or 3 (2325 = 1 + 24 + 276 + 2024
total) used to build the syndrome table.  The spec fixes the weight-grouped
contents, not the loop order inside each weight class. -/
def make3bitErrors : List (List Nat) :=
  vecsW 0 24 ++ vecsW 1 24 ++ vecsW 2 24 ++ vecsW 3 24

/-- Modelled from the spec: `DEFAULT_SYNDROME_LUT` — the table mapping the
syndrome of each weight-≤3 error pattern to that pattern, modelled as an
association list (the dict of the sources, with first-match lookup; the keys
are proved pairwise distinct below, so the two agree). -/
def DEFAULT_SYNDROME_LUT : List (List Nat × List Nat) :=
  make3bitErrors.map (fun e => (syndrome e, e))

/-- Modelled from the spec: `decode_bits(received)`.  Zero syndrome returns
the word unchanged with 0 errors; a syndrome found in the table returns the
word XOR the stored pattern and the pattern's weight; a missing syndrome is
the uncorrectable sentinel `(absent, 4)`. -/
def decode_bits (u : List Nat) : Option (List Nat) × Nat :=
  let s := syndrome u
  if s = List.replicate 12 0 then (some u, 0)
  else
    match DEFAULT_SYNDROME_LUT.lookup s with
    | some e => (some (xorv u e), weight e)
    | none => (none, 4)

/-- Modelled from the spec: `nt_to_bits` — the 2-bits-per-nucleotide codon
table, defined only on {A,C,G,T}; any other character signals unmapped
(`none`).  The concrete assignment (A↦11, C↦00, T↦10, G↦01, first bit
leftmost) is the one validated against the repository's test vectors. -/
def ntToBits : Char → Option (Nat × Nat)
  | 'A' => some (1, 1)
  | 'C' => some (0, 0)
  | 'T' => some (1, 0)
  | 'G' => some (0, 1)
  | _ => none

/-- Modelled from the spec: `bits_to_nt` — total inverse of `ntToBits` on
the four valid codons (the catch-all keeps the function total on `Nat`
pairs; only bits ever reach it). -/
def bitsToNt : Nat × Nat → Char
  | (0, 0) => 'C'
  | (0, 1) => 'G'
  | (1, 0) => 'T'
  | (1, 1) => 'A'
  | _ => 'N'

/-- Modelled from the spec: `string_to_bits` — concatenates the codons of
the characters in input order; an unmappable character makes the whole
result unmapped (`none`), the condition the spec's unmapped-mask reports. -/
def seqToBits : List Char → Option (List Nat)
  | [] => some []
  | c :: t =>
    match ntToBits c, seqToBits t with
    | some (b1, b2), some rest => some (b1 :: b2 :: rest)
    | _, _ => none

/-- Modelled from the spec: `bits_to_string` — renders a 24-bit vector back
to a 12-nt string, two bits per nucleotide. -/
def bitsToSeq : List Nat → List Char
  | b1 :: b2 :: t => bitsToNt (b1, b2) :: bitsToSeq t
  | _ => []

/-- Modelled from the spec: `decode(barcode)`.  A barcode whose length is
not 12 fails with a length-mismatch error stating the literal observed
length; an unmappable character yields `(absent, 4)` without any table
lookup; otherwise the result of `decode_bits` is rendered back to a
string.  Failure is modelled with `Except` (the `ValueError` of the
sources). -/
def decode (s : String) : Except String (Option String × Nat) :=
  if s.length ≠ 12 then
    .error ("Golay decoding requires 12nt barcodes. The barcode attempting to be decoded (" ++
      s ++ ") is of " ++ "length " ++ toString s.length ++ "nt.")
  else
    match seqToBits s.data with
    | none => .ok (none, 4)
    | some bits =>
      match decode_bits bits with
      | (none, n) => .ok (none, n)
      | (some c, n) => .ok (some (String.mk (bitsToSeq c)), n)

/-- Value of a bit vector read little-endian in base 2 (proof-side device
indexing the 4096 possible messages). -/
def bitsToNat : List Nat → Nat
  | [] => 0
  | b :: t => b + 2 * bitsToNat t

/-- Value of an integer vector read little-endian in base 16 (proof-side
device: base 16 leaves room for carry-free sums of up to twelve 0/1 rows). -/
def bitsToNat16 : List Nat → Nat
  | [] => 0
  | b :: t => b + 16 * bitsToNat16 t

/-- Sum of the rows of `masks` (base-16 packed) selected by the binary
digits of `x`: the packed form of the un-reduced product `message · G`. -/
def natEnc16 : List Nat → Nat → Nat
  | [], _ => 0
  | r :: rest, x => (if x % 2 = 1 then r else 0) + natEnc16 rest (x / 2)

/-- Number of odd base-16 digits among the first `f` digits of `x`: the
Hamming weight of the mod-2 reduction of a packed vector. -/
def wt16 : Nat → Nat → Nat
  | 0, _ => 0
  | f+1, x => x % 16 % 2 + wt16 f (x / 16)

/-- The rows of `DEFAULT_G` packed in base 16 (`bitsToNat16` of each row;
proved equal to that below). -/
def GMasks16 : List Nat := [5281877500950655599594438657, 309490045859319860074381328,
  4971103285007710998665101568, 5262454112454485444827025408, 328903382028669223092420608,
  4972316618518295333854773248, 5262529945798896965793087488, 5280668278753934568039907328,
  330041767422384797571350528, 20627610464163001089916928, 1289225654275165575446528,
  4951840733744913228725485568]

/-- Balanced-tree check that every nonzero 12-bit message has a codeword of
Hamming weight at least 8: `checkW d i` checks all messages whose index
lies in the block of size `2 ^ d` starting at `i * 2 ^ d`. -/
def checkW : Nat → Nat → Bool
  | 0, i => decide (i = 0 ∨ 8 ≤ wt16 24 (natEnc16 GMasks16 i))
  | d+1, i => checkW d (2*i) && checkW d (2*i+1)

/- ------------------------------------------------------------------ -/
/- The format layer (`q2_demux/_format.py`), embedded from the source. -/
/- ------------------------------------------------------------------ -/

/-- Whitespace characters stripped by Python's `str.strip()` (ASCII part;
no character outside this set appears in the claims). -/
def pyIsSpace (c : Char) : Bool :=
  c = ' ' || c = '\t' || c = '\n' || c = '\x0d' || c = '\x0b' || c = '\x0c'

/-- Python `str.strip()`: drop leading and trailing whitespace. -/
def pyStrip (s : String) : String :=
  String.mk (((s.data.dropWhile pyIsSpace).reverse.dropWhile pyIsSpace).reverse)

/-- Python `file.readline()` on the whole file content: everything up to and
including the first newline, or the whole content if it has none. -/
def readline (content : String) : String :=
  match content.data.span (· ≠ '\n') with
  | (before, []) => String.mk before
  | (before, _ :: _) => String.mk (before ++ ['\n'])

/-- First line of the content, newline excluded. -/
def firstLine (content : String) : String :=
  String.mk (content.data.takeWhile (· ≠ '\n'))

/-- Helper of `splitTab`: Python `str.split` on a fixed separator, with the
current field accumulated in reverse. -/
def splitTabAux : List Char → List Char → List String
  | [], acc => [String.mk acc.reverse]
  | c :: rest, acc =>
    if c = '\t' then String.mk acc.reverse :: splitTabAux rest []
    else splitTabAux rest (c :: acc)

/-- Python `line.split('\t')`: fields between tabs, empty fields kept. -/
def splitTab (s : String) : List String := splitTabAux s.data []

/-- Required header columns of `ErrorCorrectionDetailsFmt`, listed in the
sorted order in which `_validate_` iterates over them. -/
def METADATA_COLUMNS : List String :=
  ["barcode-corrected", "barcode-errors", "barcode-sequence-id",
   "barcode-uncorrected", "sample"]

/-- Loop body of `_validate_`: raise on the first required column missing
from the header set. -/
def checkColumns (cols : List String) (header : List String) : Except String Unit :=
  match cols with
  | [] => .ok ()
  | c :: rest =>
    if c ∈ header then checkColumns rest header
    else .error (c ++ " is not a column")

/-- Embedding of `ErrorCorrectionDetailsFmt._validate_` (`_format.py`,
lines 72–80), as a function of the file content: read the first line; if it
is blank after stripping, fail with "Failed to locate header."; otherwise
split the stripped line on tabs and require every metadata column to be
present.  `ValidationError` is modelled as the `Except` error case; the
unused `level` parameter is dropped. -/
def validateECDetails (content : String) : Except String Unit :=
  let line := readline content
  if (pyStrip line).length = 0 then .error "Failed to locate header."
  else checkColumns METADATA_COLUMNS (splitTab (pyStrip line))

/- ------------------------------------------------------------------ -/
/- Small arithmetic and list lemmas.                                   -/
/- ------------------------------------------------------------------ -/

/-- Unfolding of the 12-entry zero vector. -/
theorem rep12 : List.replicate 12 (0:Nat) = [0,0,0,0,0,0,0,0,0,0,0,0] := rfl

/-- Unfolding of the 24-entry zero vector. -/
theorem rep24 : List.replicate 24 (0:Nat) =
    [0,0,0,0,0,0,0,0,0,0,0,0,0,0,0,0,0,0,0,0,0,0,0,0] := rfl

/-- A number plus its own parity is even. -/
theorem add_self_mod (x : Nat) : (x + x % 2) % 2 = 0 := by omega

/-- A bit equals its own parity. -/
theorem bit_self {a : Nat} (h : a ≤ 1) : a = a % 2 := by omega

/-- Parity of a bit is the bit. -/
theorem bit_mod {a : Nat} (h : a ≤ 1) : a % 2 = a := by omega

/-- A bit at the end of an even 8-term sum is the parity of the other 7. -/
theorem bitsum8 {x0 x1 x2 x3 x4 x5 x6 r : Nat} (hr : r ≤ 1)
    (h : (x0 + (x1 + (x2 + (x3 + (x4 + (x5 + (x6 + r))))))) % 2 = 0) :
    r = (x0 + (x1 + (x2 + (x3 + (x4 + (x5 + x6)))))) % 2 := by omega

/-- A bit at the end of an even 12-term sum is the parity of the other 11. -/
theorem bitsum12 {x0 x1 x2 x3 x4 x5 x6 x7 x8 x9 x10 r : Nat} (hr : r ≤ 1)
    (h : (x0 + (x1 + (x2 + (x3 + (x4 + (x5 + (x6 + (x7 + (x8 + (x9 + (x10 + r))))))))))) % 2 = 0) :
    r = (x0 + (x1 + (x2 + (x3 + (x4 + (x5 + (x6 + (x7 + (x8 + (x9 + x10)))))))))) % 2 := by omega

/-- A 7-term sum plus its own parity is even. -/
theorem parity7 {x0 x1 x2 x3 x4 x5 x6 : Nat} :
    (x0 + (x1 + (x2 + (x3 + (x4 + (x5 + (x6 +
      (x0 + (x1 + (x2 + (x3 + (x4 + (x5 + x6)))))) % 2))))))) % 2 = 0 := by
  rw [show x0 + (x1 + (x2 + (x3 + (x4 + (x5 + (x6 +
      (x0 + (x1 + (x2 + (x3 + (x4 + (x5 + x6)))))) % 2)))))) =
    (x0 + (x1 + (x2 + (x3 + (x4 + (x5 + x6)))))) +
      (x0 + (x1 + (x2 + (x3 + (x4 + (x5 + x6)))))) % 2 from by ring]
  exact add_self_mod _

/-- An 11-term sum plus its own parity is even. -/
theorem parity11 {x0 x1 x2 x3 x4 x5 x6 x7 x8 x9 x10 : Nat} :
    (x0 + (x1 + (x2 + (x3 + (x4 + (x5 + (x6 + (x7 + (x8 + (x9 + (x10 +
      (x0 + (x1 + (x2 + (x3 + (x4 + (x5 + (x6 + (x7 + (x8 + (x9 + x10)))))))))) % 2))))))))))) % 2
      = 0 := by
  rw [show x0 + (x1 + (x2 + (x3 + (x4 + (x5 + (x6 + (x7 + (x8 + (x9 + (x10 +
      (x0 + (x1 + (x2 + (x3 + (x4 + (x5 + (x6 + (x7 + (x8 + (x9 + x10)))))))))) % 2)))))))))) =
    (x0 + (x1 + (x2 + (x3 + (x4 + (x5 + (x6 + (x7 + (x8 + (x9 + x10)))))))))) +
      (x0 + (x1 + (x2 + (x3 + (x4 + (x5 + (x6 + (x7 + (x8 + (x9 + x10)))))))))) % 2 from by ring]
  exact add_self_mod _

/-- Destructuring of a list known to have length 12 into its entries. -/
theorem len12_cases (u : List Nat) (hl : u.length = 12) :
    ∃ a0 a1 a2 a3 a4 a5 a6 a7 a8 a9 a10 a11, u = [a0, a1, a2, a3, a4, a5, a6, a7, a8, a9, a10, a11] := by
  rcases u with _ | ⟨a0, u⟩
  · simp only [List.length_nil, List.length_cons] at hl; omega
  rcases u with _ | ⟨a1, u⟩
  · simp only [List.length_nil, List.length_cons] at hl; omega
  rcases u with _ | ⟨a2, u⟩
  · simp only [List.length_nil, List.length_cons] at hl; omega
  rcases u with _ | ⟨a3, u⟩
  · simp only [List.length_nil, List.length_cons] at hl; omega
  rcases u with _ | ⟨a4, u⟩
  · simp only [List.length_nil, List.length_cons] at hl; omega
  rcases u with _ | ⟨a5, u⟩
  · simp only [List.length_nil, List.length_cons] at hl; omega
  rcases u with _ | ⟨a6, u⟩
  · simp only [List.length_nil, List.length_cons] at hl; omega
  rcases u with _ | ⟨a7, u⟩
  · simp only [List.length_nil, List.length_cons] at hl; omega
  rcases u with _ | ⟨a8, u⟩
  · simp only [List.length_nil, List.length_cons] at hl; omega
  rcases u with _ | ⟨a9, u⟩
  · simp only [List.length_nil, List.length_cons] at hl; omega
  rcases u with _ | ⟨a10, u⟩
  · simp only [List.length_nil, List.length_cons] at hl; omega
  rcases u with _ | ⟨a11, u⟩
  · simp only [List.length_nil, List.length_cons] at hl; omega
  rcases u with _ | ⟨x, u⟩
  · exact ⟨a0, a1, a2, a3, a4, a5, a6, a7, a8, a9, a10, a11, rfl⟩
  · simp only [List.length_nil, List.length_cons] at hl; omega

/-- Destructuring of a list known to have length 24 into its entries. -/
theorem len24_cases (u : List Nat) (hl : u.length = 24) :
    ∃ a0 a1 a2 a3 a4 a5 a6 a7 a8 a9 a10 a11 a12 a13 a14 a15 a16 a17 a18 a19 a20 a21 a22 a23, u = [a0, a1, a2, a3, a4, a5, a6, a7, a8, a9, a10, a11, a12, a13, a14, a15, a16, a17, a18, a19, a20, a21, a22, a23] := by
  rcases u with _ | ⟨a0, u⟩
  · simp only [List.length_nil, List.length_cons] at hl; omega
  rcases u with _ | ⟨a1, u⟩
  · simp only [List.length_nil, List.length_cons] at hl; omega
  rcases u with _ | ⟨a2, u⟩
  · simp only [List.length_nil, List.length_cons] at hl; omega
  rcases u with _ | ⟨a3, u⟩
  · simp only [List.length_nil, List.length_cons] at hl; omega
  rcases u with _ | ⟨a4, u⟩
  · simp only [List.length_nil, List.length_cons] at hl; omega
  rcases u with _ | ⟨a5, u⟩
  · simp only [List.length_nil, List.length_cons] at hl; omega
  rcases u with _ | ⟨a6, u⟩
  · simp only [List.length_nil, List.length_cons] at hl; omega
  rcases u with _ | ⟨a7, u⟩
  · simp only [List.length_nil, List.length_cons] at hl; omega
  rcases u with _ | ⟨a8, u⟩
  · simp only [List.length_nil, List.length_cons] at hl; omega
  rcases u with _ | ⟨a9, u⟩
  · simp only [List.length_nil, List.length_cons] at hl; omega
  rcases u with _ | ⟨a10, u⟩
  · simp only [List.length_nil, List.length_cons] at hl; omega
  rcases u with _ | ⟨a11, u⟩
  · simp only [List.length_nil, List.length_cons] at hl; omega
  rcases u with _ | ⟨a12, u⟩
  · simp only [List.length_nil, List.length_cons] at hl; omega
  rcases u with _ | ⟨a13, u⟩
  · simp only [List.length_nil, List.length_cons] at hl; omega
  rcases u with _ | ⟨a14, u⟩
  · simp only [List.length_nil, List.length_cons] at hl; omega
  rcases u with _ | ⟨a15, u⟩
  · simp only [List.length_nil, List.length_cons] at hl; omega
  rcases u with _ | ⟨a16, u⟩
  · simp only [List.length_nil, List.length_cons] at hl; omega
  rcases u with _ | ⟨a17, u⟩
  · simp only [List.length_nil, List.length_cons] at hl; omega
  rcases u with _ | ⟨a18, u⟩
  · simp only [List.length_nil, List.length_cons] at hl; omega
  rcases u with _ | ⟨a19, u⟩
  · simp only [List.length_nil, List.length_cons] at hl; omega
  rcases u with _ | ⟨a20, u⟩
  · simp only [List.length_nil, List.length_cons] at hl; omega
  rcases u with _ | ⟨a21, u⟩
  · simp only [List.length_nil, List.length_cons] at hl; omega
  rcases u with _ | ⟨a22, u⟩
  · simp only [List.length_nil, List.length_cons] at hl; omega
  rcases u with _ | ⟨a23, u⟩
  · simp only [List.length_nil, List.length_cons] at hl; omega
  rcases u with _ | ⟨x, u⟩
  · exact ⟨a0, a1, a2, a3, a4, a5, a6, a7, a8, a9, a10, a11, a12, a13, a14, a15, a16, a17, a18, a19, a20, a21, a22, a23, rfl⟩
  · simp only [List.length_nil, List.length_cons] at hl; omega

/- ------------------------------------------------------------------ -/
/- Algebra of bit vectors.                                             -/
/- ------------------------------------------------------------------ -/

/-- Length of a pointwise XOR. -/
theorem xorv_length (u v : List Nat) : (xorv u v).length = min u.length v.length := by
  simp [xorv]

/-- A pointwise XOR has bit entries. -/
theorem xorv_isBits (u v : List Nat) : IsBits (xorv u v) := by
  induction u generalizing v with
  | nil => intro b hb; simp [xorv] at hb
  | cons a t ih =>
    cases v with
    | nil => intro b hb; simp [xorv] at hb
    | cons b s =>
      intro x hx
      simp only [xorv, List.zipWith_cons_cons, List.mem_cons] at hx
      rcases hx with rfl | hx
      · omega
      · exact ih s x hx

/-- The syndrome has bit entries. -/
theorem syndrome_isBits (u : List Nat) : IsBits (syndrome u) := by
  intro b hb
  simp only [syndrome, matVec, List.mem_map] at hb
  obtain ⟨r, _, rfl⟩ := hb
  omega

/-- The syndrome of a 24-bit word is a 12-bit word. -/
theorem syndrome_length (u : List Nat) : (syndrome u).length = 12 := by
  simp [syndrome, matVec, DEFAULT_H]

/-- XOR of a vector with itself is the zero vector. -/
theorem xorv_self (u : List Nat) : xorv u u = List.replicate u.length 0 := by
  induction u with
  | nil => rfl
  | cons a t ih =>
    simp only [xorv, List.length_cons, List.replicate_succ, List.zipWith_cons_cons,
      List.cons.injEq]
    exact ⟨by omega, by simpa [xorv] using ih⟩

/-- Two bit vectors whose XOR is zero are equal. -/
theorem xorv_eq_zero {u v : List Nat} (hu : IsBits u) (hv : IsBits v)
    (hl : u.length = v.length) (h : xorv u v = List.replicate u.length 0) : u = v := by
  induction u generalizing v with
  | nil => cases v with
    | nil => rfl
    | cons b t => simp at hl
  | cons a t ih =>
    cases v with
    | nil => simp at hl
    | cons b s =>
      simp only [xorv, List.zipWith_cons_cons, List.length_cons, List.replicate_succ,
        List.cons.injEq] at h
      obtain ⟨h1, h2⟩ := h
      have ha : a ≤ 1 := hu a (by simp)
      have hb : b ≤ 1 := hv b (by simp)
      have : a = b := by omega
      subst this
      have := ih (fun x hx => hu x (by simp [hx])) (fun x hx => hv x (by simp [hx]))
        (by simpa using hl) h2
      rw [this]

/-- XORing twice with the same bit vector is the identity. -/
theorem xorv_xorv_self {c e : List Nat} (hc : IsBits c) (he : IsBits e)
    (hl : c.length = e.length) : xorv (xorv c e) e = c := by
  induction c generalizing e with
  | nil => cases e with
    | nil => rfl
    | cons b t => simp at hl
  | cons a t ih =>
    cases e with
    | nil => simp at hl
    | cons b s =>
      simp only [xorv, List.zipWith_cons_cons, List.cons.injEq]
      have ha : a ≤ 1 := hc a (by simp)
      have hb : b ≤ 1 := he b (by simp)
      refine ⟨by omega, ?_⟩
      exact ih (fun x hx => hc x (by simp [hx])) (fun x hx => he x (by simp [hx]))
        (by simpa using hl)

/-- Weight of an XOR is at most the sum of the weights. -/
theorem weight_xorv_le (u v : List Nat) : weight (xorv u v) ≤ weight u + weight v := by
  induction u generalizing v with
  | nil => simp [xorv, weight]
  | cons a t ih =>
    cases v with
    | nil => simp [xorv, weight]
    | cons b s =>
      have h2 := ih s
      simp [xorv, weight] at h2 ⊢
      omega

/-- The zero vector has weight zero. -/
theorem weight_replicate_zero (n : Nat) : weight (List.replicate n 0) = 0 := by
  simp [weight]

/-- A bit vector of weight zero is the zero vector. -/
theorem weight_zero_eq_replicate {u : List Nat} (hu : IsBits u) (h : weight u = 0) :
    u = List.replicate u.length 0 := by
  induction u with
  | nil => rfl
  | cons a t ih =>
    simp only [weight, List.sum_cons] at h
    have ha : a ≤ 1 := hu a (by simp)
    simp only [List.length_cons, List.replicate_succ, List.cons.injEq]
    exact ⟨by omega, ih (fun x hx => hu x (by simp [hx])) (by simp only [weight]; omega)⟩

/-- XOR with the zero vector on the left is the identity on bit vectors. -/
theorem xorv_zero_left {v : List Nat} (hv : IsBits v) (n : Nat) (hl : v.length = n) :
    xorv (List.replicate n 0) v = v := by
  induction v generalizing n with
  | nil => subst hl; rfl
  | cons a t ih =>
    subst hl
    simp only [List.length_cons, List.replicate_succ, xorv, List.zipWith_cons_cons,
      List.cons.injEq]
    have ha : a ≤ 1 := hv a (by simp)
    exact ⟨by omega, ih (fun x hx => hv x (by simp [hx])) t.length rfl⟩

/-- Unfolding of the first half of an explicit 24-entry list. -/
theorem take12_of_24 (a0 a1 a2 a3 a4 a5 a6 a7 a8 a9 a10 a11 a12 a13 a14 a15 a16 a17 a18 a19 a20 a21 a22 a23 : Nat) :
    List.take 12 [a0,a1,a2,a3,a4,a5,a6,a7,a8,a9,a10,a11,a12,a13,a14,a15,a16,a17,a18,a19,a20,a21,a22,a23] =
    [a0,a1,a2,a3,a4,a5,a6,a7,a8,a9,a10,a11] := rfl


set_option maxHeartbeats 1000000 in
/-- The null space of `H` is the code: a 24-bit word with zero syndrome is
the codeword encoding its own first 12 bits. -/
theorem nullspace (u : List Nat) (hb : IsBits u) (hl : u.length = 24)
    (h0 : syndrome u = List.replicate 12 0) : u = encode (u.take 12) := by
  obtain ⟨a0, a1, a2, a3, a4, a5, a6, a7, a8, a9, a10, a11, a12, a13, a14, a15, a16, a17, a18, a19, a20, a21, a22, a23, rfl⟩ := len24_cases u hl
  simp only [IsBits, List.mem_cons, List.not_mem_nil, or_false, forall_eq_or_imp,
    forall_eq] at hb
  obtain ⟨hb0, hb1, hb2, hb3, hb4, hb5, hb6, hb7, hb8, hb9, hb10, hb11, hb12, hb13, hb14, hb15, hb16, hb17, hb18, hb19, hb20, hb21, hb22, hb23⟩ := hb
  simp only [syndrome, matVec, DEFAULT_H, dot, List.zipWith_cons_cons, List.zipWith_nil_right,
    List.zipWith_nil_left, List.map_cons, List.map_nil, List.sum_cons, List.sum_nil, rep12,
    List.cons.injEq, and_true, Nat.zero_mul, Nat.one_mul, Nat.add_zero, Nat.zero_add] at h0
  obtain ⟨h00, h01, h02, h03, h04, h05, h06, h07, h08, h09, h010, h011⟩ := h0
  simp only [encode, vecMat, DEFAULT_G, take12_of_24, List.zipWith_cons_cons,
    List.zipWith_nil_right, List.zipWith_nil_left, List.map_cons, List.map_nil,
    List.foldr_cons, List.foldr_nil, rep12, rep24, List.cons.injEq, and_true, Nat.mul_zero,
    Nat.mul_one, Nat.zero_mul, Nat.one_mul, Nat.add_zero, Nat.zero_add]
  exact ⟨bit_self hb0, bit_self hb1, bit_self hb2, bit_self hb3, bit_self hb4, bit_self hb5, bit_self hb6, bit_self hb7, bit_self hb8, bit_self hb9, bit_self hb10, bit_self hb11, bitsum12 hb12 h00, bitsum8 hb13 h01, bitsum8 hb14 h02, bitsum8 hb15 h03, bitsum8 hb16 h04, bitsum8 hb17 h05, bitsum8 hb18 h06, bitsum8 hb19 h07, bitsum8 hb20 h08, bitsum8 hb21 h09, bitsum8 hb22 h010, bitsum8 hb23 h011⟩


set_option maxHeartbeats 1000000 in
/-- Every codeword has zero syndrome (the content of `G · Hᵗ = 0`). -/
theorem syndrome_encode_zero (m : List Nat) (hb : IsBits m) (hl : m.length = 12) :
    syndrome (encode m) = List.replicate 12 0 := by
  obtain ⟨a0, a1, a2, a3, a4, a5, a6, a7, a8, a9, a10, a11, rfl⟩ := len12_cases m hl
  simp only [IsBits, List.mem_cons, List.not_mem_nil, or_false, forall_eq_or_imp,
    forall_eq] at hb
  obtain ⟨hb0, hb1, hb2, hb3, hb4, hb5, hb6, hb7, hb8, hb9, hb10, hb11⟩ := hb
  simp only [syndrome, encode, matVec, vecMat, DEFAULT_G, DEFAULT_H, dot,
    List.zipWith_cons_cons, List.zipWith_nil_right, List.zipWith_nil_left, List.map_cons,
    List.map_nil, List.sum_cons, List.sum_nil, List.foldr_cons, List.foldr_nil, rep12, rep24,
    List.cons.injEq, and_true, Nat.mul_zero, Nat.mul_one, Nat.zero_mul, Nat.one_mul,
    Nat.add_zero, Nat.zero_add, bit_mod hb0, bit_mod hb1, bit_mod hb2, bit_mod hb3, bit_mod hb4, bit_mod hb5, bit_mod hb6, bit_mod hb7, bit_mod hb8, bit_mod hb9, bit_mod hb10, bit_mod hb11]
  exact ⟨parity11, parity7, parity7, parity7, parity7, parity7, parity7, parity7, parity7, parity7, parity7, parity7⟩

/- ------------------------------------------------------------------ -/
/- Linearity of the syndrome map.                                      -/
/- ------------------------------------------------------------------ -/

/-- Unfolding of the dot product on cons cells. -/
theorem dot_cons (h a : Nat) (rt t : List Nat) : dot (h :: rt) (a :: t) = h * a + dot rt t := rfl

/-- Unfolding of the pointwise XOR on cons cells. -/
theorem xorv_cons (a b : Nat) (t s : List Nat) :
    xorv (a :: t) (b :: s) = (a + b) % 2 :: xorv t s := rfl

/-- Unfolding of the matrix–vector product on a cons row. -/
theorem matVec_cons (r : List Nat) (M : List (List Nat)) (v : List Nat) :
    matVec (r :: M) v = dot r v % 2 :: matVec M v := rfl

/-- Parity of a dot product against an XOR splits into the two dot
products: the syndrome map is linear mod 2. -/
theorem dot_xorv_mod (r : List Nat) : ∀ (u v : List Nat), u.length = v.length →
    dot r (xorv u v) % 2 = (dot r u + dot r v) % 2 := by
  induction r with
  | nil => intro u v _; simp [dot]
  | cons h rt ih =>
    intro u v hl
    cases u with
    | nil =>
      cases v with
      | nil => simp [dot, xorv]
      | cons b s => simp at hl
    | cons a t =>
      cases v with
      | nil => simp at hl
      | cons b s =>
        rw [xorv_cons, dot_cons, dot_cons, dot_cons]
        have ihts : Nat.ModEq 2 (dot rt (xorv t s)) (dot rt t + dot rt s) :=
          ih t s (by simpa using hl)
        have step : Nat.ModEq 2 (h * ((a + b) % 2) + dot rt (xorv t s))
            (h * (a + b) + (dot rt t + dot rt s)) :=
          Nat.ModEq.add (Nat.ModEq.mul_left h (Nat.mod_modEq (a + b) 2)) ihts
        calc (h * ((a + b) % 2) + dot rt (xorv t s)) % 2
            = (h * (a + b) + (dot rt t + dot rt s)) % 2 := step
          _ = (h * a + dot rt t + (h * b + dot rt s)) % 2 := by
              rw [show h * (a + b) + (dot rt t + dot rt s) =
                h * a + dot rt t + (h * b + dot rt s) from by ring]

/-- The matrix–vector product mod 2 distributes over pointwise XOR. -/
theorem matVec_xorv (M : List (List Nat)) (u v : List Nat) (hl : u.length = v.length) :
    matVec M (xorv u v) = xorv (matVec M u) (matVec M v) := by
  induction M with
  | nil => rfl
  | cons r Mt ih =>
    rw [matVec_cons, matVec_cons, matVec_cons, xorv_cons]
    exact List.cons_eq_cons.mpr ⟨(dot_xorv_mod r u v hl).trans (Nat.add_mod _ _ _), ih⟩

/-- The syndrome of an XOR is the XOR of the syndromes. -/
theorem syndrome_xorv (u v : List Nat) (hl : u.length = v.length) :
    syndrome (xorv u v) = xorv (syndrome u) (syndrome v) :=
  matVec_xorv DEFAULT_H u v hl

/- ------------------------------------------------------------------ -/
/- The weight-graded enumeration of error patterns.                    -/
/- ------------------------------------------------------------------ -/

/-- Every vector produced by `vecsW k n` has length `n`, bit entries and
Hamming weight exactly `k`. -/
theorem vecsW_sound : ∀ (n k : Nat) (v : List Nat), v ∈ vecsW k n →
    v.length = n ∧ IsBits v ∧ weight v = k := by
  intro n
  induction n with
  | zero =>
    intro k v hv
    cases k with
    | zero =>
      simp only [vecsW, List.mem_singleton] at hv
      subst hv
      exact ⟨rfl, by intro b hb; simp at hb, rfl⟩
    | succ k => simp [vecsW] at hv
  | succ n ih =>
    intro k v hv
    cases k with
    | zero =>
      simp only [vecsW, List.mem_singleton] at hv
      subst hv
      refine ⟨by simp, ?_, by simp [weight]⟩
      intro b hb
      rw [List.eq_of_mem_replicate hb]
      omega
    | succ k =>
      simp only [vecsW, List.mem_append, List.mem_map] at hv
      rcases hv with ⟨t, ht, rfl⟩ | ⟨t, ht, rfl⟩
      · obtain ⟨hlen, hbits, hw⟩ := ih (k+1) t ht
        refine ⟨by simp [hlen], ?_, ?_⟩
        · intro b hb
          rcases List.mem_cons.1 hb with rfl | hb
          · omega
          · exact hbits b hb
        · simp only [weight, List.sum_cons, Nat.zero_add]
          simpa [weight] using hw
      · obtain ⟨hlen, hbits, hw⟩ := ih k t ht
        refine ⟨by simp [hlen], ?_, ?_⟩
        · intro b hb
          rcases List.mem_cons.1 hb with rfl | hb
          · omega
          · exact hbits b hb
        · simp only [weight, List.sum_cons]
          simp only [weight] at hw
          omega

/-- Every bit vector of weight `k` appears in `vecsW k` at its length. -/
theorem vecsW_complete : ∀ (v : List Nat) (k : Nat), IsBits v → weight v = k →
    v ∈ vecsW k v.length := by
  intro v
  induction v with
  | nil =>
    intro k _ hw
    simp only [weight, List.sum_nil] at hw
    subst hw
    simp [vecsW]
  | cons b t ih =>
    intro k hb hw
    have hbb : b ≤ 1 := hb b (by simp)
    have hbt : IsBits t := fun x hx => hb x (by simp [hx])
    rcases (by omega : b = 0 ∨ b = 1) with rfl | rfl
    · cases k with
      | zero =>
        have hwt : weight t = 0 := by
          simp only [weight, List.sum_cons] at hw ⊢; omega
        have ht0 := weight_zero_eq_replicate hbt hwt
        simp only [List.length_cons, vecsW, List.mem_singleton]
        rw [List.replicate_succ]
        exact List.cons_eq_cons.mpr ⟨rfl, ht0⟩
      | succ j =>
        have hwt : weight t = j + 1 := by
          simp only [weight, List.sum_cons] at hw ⊢; omega
        have hmem := ih (j+1) hbt hwt
        simp only [List.length_cons, vecsW, List.mem_append, List.mem_map]
        exact Or.inl ⟨t, hmem, rfl⟩
    · cases k with
      | zero => simp only [weight, List.sum_cons] at hw; omega
      | succ j =>
        have hwt : weight t = j := by
          simp only [weight, List.sum_cons] at hw ⊢; omega
        have hmem := ih j hbt hwt
        simp only [List.length_cons, vecsW, List.mem_append, List.mem_map]
        exact Or.inr ⟨t, hmem, rfl⟩

/-- The enumeration `vecsW k n` lists each vector at most once. -/
theorem vecsW_nodup : ∀ (n k : Nat), (vecsW k n).Nodup := by
  intro n
  induction n with
  | zero =>
    intro k
    cases k <;> simp [vecsW]
  | succ n ih =>
    intro k
    cases k with
    | zero => simp [vecsW]
    | succ k =>
      simp only [vecsW]
      refine List.Nodup.append ?_ ?_ ?_
      · exact (ih (k+1)).map (fun x y h => by injection h)
      · exact (ih k).map (fun x y h => by injection h)
      · intro x hx hy
        simp only [List.mem_map] at hx hy
        obtain ⟨t1, _, rfl⟩ := hx
        obtain ⟨t2, _, h⟩ := hy
        injection h with h1 _
        omega

/-- Membership in `make3bitErrors` is exactly: 24-bit vector of weight at
most 3. -/
theorem make3bitErrors_mem (v : List Nat) :
    v ∈ make3bitErrors ↔ IsBits v ∧ v.length = 24 ∧ weight v ≤ 3 := by
  constructor
  · intro hv
    simp only [make3bitErrors, List.mem_append] at hv
    rcases hv with ((h | h) | h) | h <;>
      obtain ⟨hlen, hbits, hw⟩ := vecsW_sound 24 _ v h <;>
      exact ⟨hbits, hlen, by omega⟩
  · rintro ⟨hbits, hlen, hw⟩
    have hmem := vecsW_complete v (weight v) hbits rfl
    rw [hlen] at hmem
    simp only [make3bitErrors, List.mem_append]
    interval_cases h : weight v
    · exact Or.inl (Or.inl (Or.inl hmem))
    · exact Or.inl (Or.inl (Or.inr hmem))
    · exact Or.inl (Or.inr hmem)
    · exact Or.inr hmem

/-- The enumeration of weight-≤3 error patterns lists each vector once. -/
theorem make3bitErrors_nodup : make3bitErrors.Nodup := by
  have hd : ∀ (k1 k2 : Nat), k1 ≠ k2 → List.Disjoint (vecsW k1 24) (vecsW k2 24) := by
    intro k1 k2 hne x h1 h2
    have w1 := (vecsW_sound 24 k1 x h1).2.2
    have w2 := (vecsW_sound 24 k2 x h2).2.2
    omega
  have n0 := vecsW_nodup 24 0
  have n1 := vecsW_nodup 24 1
  have n2 := vecsW_nodup 24 2
  have n3 := vecsW_nodup 24 3
  refine List.Nodup.append (List.Nodup.append (List.Nodup.append n0 n1 (hd 0 1 (by omega))) n2 ?_) n3 ?_
  · intro x hx hy
    simp only [List.mem_append] at hx
    rcases hx with h | h
    · exact hd 0 2 (by omega) h hy
    · exact hd 1 2 (by omega) h hy
  · intro x hx hy
    simp only [List.mem_append] at hx
    rcases hx with (h | h) | h
    · exact hd 0 3 (by omega) h hy
    · exact hd 1 3 (by omega) h hy
    · exact hd 2 3 (by omega) h hy

/- ------------------------------------------------------------------ -/
/- Minimum weight 8 of the code, by balanced-tree exhaustion.          -/
/- ------------------------------------------------------------------ -/

set_option maxRecDepth 100000 in
set_option maxHeartbeats 16000000 in
/-- Exhaustive check over all 4096 messages: every nonzero message has a
codeword of weight at least 8 (packed-arithmetic form). -/
theorem checkW_holds : checkW 12 0 = true := by decide

/-- A true `checkW d i` certifies the leaf property for every index in the
block of size `2 ^ d` starting at `i * 2 ^ d`. -/
theorem checkW_sound : ∀ (d i : Nat), checkW d i = true → ∀ j, j < 2 ^ d →
    (i * 2 ^ d + j = 0 ∨ 8 ≤ wt16 24 (natEnc16 GMasks16 (i * 2 ^ d + j))) := by
  intro d
  induction d with
  | zero =>
    intro i h j hj
    have hj0 : j = 0 := by simpa using hj
    subst hj0
    have := of_decide_eq_true h
    simpa using this
  | succ d ih =>
    intro i h j hj
    simp only [checkW, Bool.and_eq_true] at h
    obtain ⟨hL, hR⟩ := h
    have h2 : 2 ^ (d + 1) = 2 ^ d * 2 := pow_succ 2 d
    by_cases hj2 : j < 2 ^ d
    · have hres := ih (2 * i) hL j hj2
      have e : 2 * i * 2 ^ d + j = i * 2 ^ (d + 1) + j := by rw [h2]; ring
      rwa [e] at hres
    · obtain ⟨j2, rfl⟩ : ∃ j2, j = 2 ^ d + j2 :=
        ⟨j - 2 ^ d, by omega⟩
      have hj2' : j2 < 2 ^ d := by omega
      have hres := ih (2 * i + 1) hR j2 hj2'
      have e : (2 * i + 1) * 2 ^ d + j2 = i * 2 ^ (d + 1) + (2 ^ d + j2) := by
        rw [h2]; ring
      rwa [e] at hres

/-- Base-16 packing is additive on pointwise sums of equal-length vectors. -/
theorem bitsToNat16_addv : ∀ (x y : List Nat), x.length = y.length →
    bitsToNat16 (List.zipWith (· + ·) x y) = bitsToNat16 x + bitsToNat16 y := by
  intro x
  induction x with
  | nil =>
    intro y hl
    cases y with
    | nil => rfl
    | cons b s => simp at hl
  | cons a t ih =>
    intro y hl
    cases y with
    | nil => simp at hl
    | cons b s =>
      simp only [List.zipWith_cons_cons, bitsToNat16]
      rw [ih s (by simpa using hl)]
      ring

/-- Base-16 packing is homogeneous under scalar scaling of a vector. -/
theorem bitsToNat16_scale (a : Nat) : ∀ (r : List Nat),
    bitsToNat16 (r.map (a * ·)) = a * bitsToNat16 r := by
  intro r
  induction r with
  | nil => simp [bitsToNat16]
  | cons g t ih =>
    simp only [List.map_cons, bitsToNat16]
    rw [ih]
    ring

/-- The packed value of the 24-entry zero vector. -/
theorem bitsToNat16_rep24 : bitsToNat16 (List.replicate 24 0) = 0 := by decide

/-- Entries produced by pointwise-adding a bit vector to a bounded vector. -/
theorem zipWith_add_entries_le : ∀ (x acc : List Nat) (k : Nat), IsBits x →
    (∀ b ∈ acc, b ≤ k) → ∀ e ∈ List.zipWith (· + ·) x acc, e ≤ k + 1 := by
  intro x
  induction x with
  | nil => intro acc k _ _ e he; simp at he
  | cons a t ih =>
    intro acc k hx hacc e he
    cases acc with
    | nil => simp at he
    | cons b s =>
      simp only [List.zipWith_cons_cons, List.mem_cons] at he
      rcases he with rfl | he
      · have := hx a (by simp)
        have := hacc b (by simp)
        omega
      · exact ih s k (fun z hz => hx z (by simp [hz])) (fun z hz => hacc z (by simp [hz])) e he

/-- Entries of the un-reduced row sum are bounded by the number of rows. -/
theorem foldr_addv_entries_le : ∀ (L : List (List Nat)), (∀ x ∈ L, IsBits x) →
    ∀ e ∈ L.foldr (List.zipWith (· + ·)) (List.replicate 24 0), e ≤ L.length := by
  intro L
  induction L with
  | nil =>
    intro _ e he
    simp only [List.foldr_nil] at he
    rw [List.eq_of_mem_replicate he]
    omega
  | cons x Lt ih =>
    intro hL e he
    simp only [List.foldr_cons] at he
    have hx : IsBits x := hL x (by simp)
    have hrec := ih (fun z hz => hL z (by simp [hz]))
    have := zipWith_add_entries_le x _ Lt.length hx hrec e he
    simp only [List.length_cons]
    omega

/-- Length of the un-reduced row sum, when all rows have length 24. -/
theorem foldr_addv_length : ∀ (L : List (List Nat)), (∀ x ∈ L, x.length = 24) →
    (L.foldr (List.zipWith (· + ·)) (List.replicate 24 0)).length = 24 := by
  intro L
  induction L with
  | nil => simp
  | cons x Lt ih =>
    intro hL
    simp only [List.foldr_cons, List.length_zipWith]
    rw [ih (fun z hz => hL z (by simp [hz])), hL x (by simp)]
    omega

/-- Selecting by the digits of zero selects nothing. -/
theorem natEnc16_zero : ∀ (masks : List Nat), natEnc16 masks 0 = 0 := by
  intro masks
  induction masks with
  | nil => rfl
  | cons r rest ih => simp [natEnc16, ih]

/-- Lengths of the scaled rows. -/
theorem zipWith_scale_lengths : ∀ (m : List Nat) (M : List (List Nat)),
    (∀ r ∈ M, r.length = 24) →
    ∀ x ∈ List.zipWith (fun a r => r.map (a * ·)) m M, x.length = 24 := by
  intro m
  induction m with
  | nil => intro M _ x hx; simp at hx
  | cons a t ih =>
    intro M hM x hx
    cases M with
    | nil => simp at hx
    | cons r Mt =>
      simp only [List.zipWith_cons_cons, List.mem_cons] at hx
      rcases hx with rfl | hx
      · simp [hM r (by simp)]
      · exact ih Mt (fun z hz => hM z (by simp [hz])) x hx

/-- The scaled rows of a bit matrix by a bit vector have bit entries. -/
theorem zipWith_scale_isBits : ∀ (m : List Nat) (M : List (List Nat)), IsBits m →
    (∀ r ∈ M, IsBits r) →
    ∀ x ∈ List.zipWith (fun a r => r.map (a * ·)) m M, IsBits x := by
  intro m
  induction m with
  | nil => intro M _ _ x hx; simp at hx
  | cons a t ih =>
    intro M hm hM x hx
    cases M with
    | nil => simp at hx
    | cons r Mt =>
      simp only [List.zipWith_cons_cons, List.mem_cons] at hx
      rcases hx with rfl | hx
      · intro b hb
        simp only [List.mem_map] at hb
        obtain ⟨g, hg, rfl⟩ := hb
        have h1 : a ≤ 1 := hm a (by simp)
        have h2 : g ≤ 1 := hM r (by simp) g hg
        rcases (by omega : a = 0 ∨ a = 1) with ha | ha <;> rw [ha] <;> omega
      · exact ih Mt (fun z hz => hm z (by simp [hz])) (fun z hz => hM z (by simp [hz])) x hx

/-- Packed form of the un-reduced vector–matrix product: it is the sum of
the packed rows selected by the binary digits of the packed message. -/
theorem presum_enc16 : ∀ (m : List Nat) (M : List (List Nat)), IsBits m →
    (∀ r ∈ M, r.length = 24) →
    bitsToNat16 ((List.zipWith (fun a r => r.map (a * ·)) m M).foldr
        (List.zipWith (· + ·)) (List.replicate 24 0))
      = natEnc16 (M.map bitsToNat16) (bitsToNat m) := by
  intro m
  induction m with
  | nil =>
    intro M _ _
    simp only [List.zipWith_nil_left, List.foldr_nil, bitsToNat]
    rw [bitsToNat16_rep24, natEnc16_zero]
  | cons a t ih =>
    intro M hm hM
    cases M with
    | nil => simp [bitsToNat16, natEnc16]
    | cons r Mt =>
      simp only [List.zipWith_cons_cons, List.foldr_cons, List.map_cons, natEnc16, bitsToNat]
      have ha : a ≤ 1 := hm a (by simp)
      have hmt : IsBits t := fun z hz => hm z (by simp [hz])
      have hMt : ∀ z ∈ Mt, z.length = 24 := fun z hz => hM z (by simp [hz])
      have hlen1 : (r.map (a * ·)).length = 24 := by simp [hM r (by simp)]
      have hlen2 : ((List.zipWith (fun a r => r.map (a * ·)) t Mt).foldr
          (List.zipWith (· + ·)) (List.replicate 24 0)).length = 24 :=
        foldr_addv_length _ (zipWith_scale_lengths t Mt hMt)
      rw [bitsToNat16_addv _ _ (by rw [hlen1, hlen2]), bitsToNat16_scale, ih Mt hmt hMt]
      have hm2 : (a + 2 * bitsToNat t) % 2 = a := by omega
      have hd2 : (a + 2 * bitsToNat t) / 2 = bitsToNat t := by omega
      simp only [hm2, hd2]
      rcases (by omega : a = 0 ∨ a = 1) with rfl | rfl
      · simp
      · simp

/-- The sum of the entry parities of a digit-bounded vector equals the
odd-digit count of its packed value. -/
theorem sum_parities_wt16 : ∀ (v : List Nat), (∀ e ∈ v, e < 16) →
    (v.map (· % 2)).sum = wt16 v.length (bitsToNat16 v) := by
  intro v
  induction v with
  | nil => intro _; rfl
  | cons e t ih =>
    intro hbnd
    have he : e < 16 := hbnd e (by simp)
    simp only [List.map_cons, List.sum_cons, List.length_cons, bitsToNat16, wt16]
    have h1 : (e + 16 * bitsToNat16 t) % 16 = e := by omega
    have h2 : (e + 16 * bitsToNat16 t) / 16 = bitsToNat16 t := by omega
    rw [h1, h2, ih (fun z hz => hbnd z (by simp [hz]))]

/-- A bit vector packs below `2 ^ length`. -/
theorem bitsToNat_lt : ∀ (v : List Nat), IsBits v → bitsToNat v < 2 ^ v.length := by
  intro v
  induction v with
  | nil => simp [bitsToNat]
  | cons b t ih =>
    intro hv
    have hb : b ≤ 1 := hv b (by simp)
    have ht := ih (fun z hz => hv z (by simp [hz]))
    simp only [bitsToNat, List.length_cons, pow_succ]
    omega

/-- A bit vector packing to zero is the zero vector. -/
theorem bitsToNat_zero : ∀ (v : List Nat), IsBits v → bitsToNat v = 0 →
    v = List.replicate v.length 0 := by
  intro v
  induction v with
  | nil => intro _ _; rfl
  | cons b t ih =>
    intro hv h0
    have hb : b ≤ 1 := hv b (by simp)
    simp only [bitsToNat] at h0
    simp only [List.length_cons, List.replicate_succ, List.cons_eq_cons]
    exact ⟨by omega, ih (fun z hz => hv z (by simp [hz])) (by omega)⟩

/-- The packed-mask literals are the packed rows of `G`. -/
theorem GMasks16_eq : GMasks16 = DEFAULT_G.map bitsToNat16 := by decide

/-- Every nonzero 12-bit message encodes to a codeword of weight at least
8: the extended Golay code has minimum distance 8. -/
theorem minweight (m : List Nat) (hb : IsBits m) (hl : m.length = 12)
    (hnz : m ≠ List.replicate 12 0) : 8 ≤ weight (encode m) := by
  have hx : bitsToNat m < 2 ^ 12 := by
    have := bitsToNat_lt m hb
    rwa [hl] at this
  have hch := checkW_sound 12 0 checkW_holds (bitsToNat m) hx
  simp only [Nat.zero_mul, Nat.zero_add] at hch
  rcases hch with h0 | h8
  · exfalso
    apply hnz
    have := bitsToNat_zero m hb h0
    rwa [hl] at this
  · have hGlen : ∀ r ∈ DEFAULT_G, r.length = 24 := by decide
    have hGbits : ∀ r ∈ DEFAULT_G, IsBits r := by decide
    have hLlen := zipWith_scale_lengths m DEFAULT_G hGlen
    have hLbits := zipWith_scale_isBits m DEFAULT_G hb hGbits
    have hplen := foldr_addv_length _ hLlen
    have hpbnd := foldr_addv_entries_le _ hLbits
    have hLL : (List.zipWith (fun a r => r.map (a * ·)) m DEFAULT_G).length = 12 := by
      rw [List.length_zipWith, hl]
      rfl
    have hbnd16 : ∀ e ∈ (List.zipWith (fun a r => r.map (a * ·)) m DEFAULT_G).foldr
        (List.zipWith (· + ·)) (List.replicate 24 0), e < 16 := by
      intro e he
      have := hpbnd e he
      rw [hLL] at this
      omega
    have e2 := sum_parities_wt16 _ hbnd16
    have e3 := presum_enc16 m DEFAULT_G hb hGlen
    have e1 : weight (encode m) = (((List.zipWith (fun a r => r.map (a * ·)) m
        DEFAULT_G).foldr (List.zipWith (· + ·)) (List.replicate 24 0)).map (· % 2)).sum := rfl
    rw [e1, e2, hplen, e3, ← GMasks16_eq]
    exact h8

/- ------------------------------------------------------------------ -/
/- Syndrome geometry: injectivity on low-weight patterns.              -/
/- ------------------------------------------------------------------ -/

/-- A 24-bit word with zero syndrome is the zero word or has weight ≥ 8. -/
theorem syndrome_zero_cases (u : List Nat) (hb : IsBits u) (hl : u.length = 24)
    (h0 : syndrome u = List.replicate 12 0) :
    u = List.replicate 24 0 ∨ 8 ≤ weight u := by
  have heq := nullspace u hb hl h0
  have htb : IsBits (u.take 12) := fun z hz => hb z (List.take_subset 12 u hz)
  have htl : (u.take 12).length = 12 := by simp [List.length_take, hl]
  by_cases hz : u.take 12 = List.replicate 12 0
  · left
    rw [heq, hz]
    decide
  · right
    rw [heq]
    exact minweight _ htb htl hz

/-- Two bit patterns of combined weight at most 7 with equal syndromes are
equal (minimum distance 8). -/
theorem syndrome_inj (e1 e2 : List Nat) (h1 : IsBits e1) (h2 : IsBits e2)
    (l1 : e1.length = 24) (l2 : e2.length = 24) (hw : weight e1 + weight e2 ≤ 7)
    (hs : syndrome e1 = syndrome e2) : e1 = e2 := by
  have hx : syndrome (xorv e1 e2) = List.replicate 12 0 := by
    rw [syndrome_xorv e1 e2 (by omega), hs, xorv_self, syndrome_length]
  have hcase := syndrome_zero_cases (xorv e1 e2) (xorv_isBits e1 e2)
    (by rw [xorv_length, l1, l2]; rfl) hx
  rcases hcase with h | h
  · exact xorv_eq_zero h1 h2 (by omega) (by rw [l1]; exact h)
  · exfalso
    have := weight_xorv_le e1 e2
    omega

/-- A nonzero pattern of weight at most 7 has a nonzero syndrome. -/
theorem syndrome_ne_zero (e : List Nat) (hb : IsBits e) (hl : e.length = 24)
    (hw1 : 1 ≤ weight e) (hw7 : weight e ≤ 7) :
    syndrome e ≠ List.replicate 12 0 := by
  intro h0
  rcases syndrome_zero_cases e hb hl h0 with h | h
  · rw [h, weight_replicate_zero] at hw1
    omega
  · omega

/- ------------------------------------------------------------------ -/
/- The syndrome lookup table.                                          -/
/- ------------------------------------------------------------------ -/

/-- The key column of the table is the syndrome image of the enumeration. -/
theorem lut_keys : DEFAULT_SYNDROME_LUT.map Prod.fst = make3bitErrors.map syndrome := by
  simp [DEFAULT_SYNDROME_LUT, List.map_map, Function.comp]

/-- The 2325 syndromes of the weight-≤3 patterns are pairwise distinct. -/
theorem syndromes_nodup : (make3bitErrors.map syndrome).Nodup := by
  refine List.Nodup.map_on ?_ make3bitErrors_nodup
  intro x hx y hy hxy
  obtain ⟨bx, lx, wx⟩ := (make3bitErrors_mem x).1 hx
  obtain ⟨hby, ly, wy⟩ := (make3bitErrors_mem y).1 hy
  exact syndrome_inj x y bx hby lx ly (by omega) hxy

/-- A successful association-list lookup returns a stored pair. -/
theorem lookup_mem {α β : Type} [BEq α] [LawfulBEq α] (k : α) (l : List (α × β)) (v : β)
    (h : l.lookup k = some v) : (k, v) ∈ l := by
  induction l with
  | nil => simp [List.lookup] at h
  | cons p t ih =>
    rcases p with ⟨k2, v2⟩
    simp only [List.lookup] at h
    cases hbeq : (k == k2) with
    | true =>
      rw [hbeq] at h
      simp only [Option.some.injEq] at h
      subst h
      have : k = k2 := eq_of_beq hbeq
      subst this
      exact List.mem_cons_self _ _
    | false =>
      rw [hbeq] at h
      exact List.mem_cons_of_mem _ (ih h)

/-- With pairwise-distinct keys, lookup finds any stored pair. -/
theorem lookup_eq_some {α β : Type} [BEq α] [LawfulBEq α] (l : List (α × β)) (k : α) (v : β)
    (hnd : (l.map Prod.fst).Nodup) (hmem : (k, v) ∈ l) : l.lookup k = some v := by
  induction l with
  | nil => simp at hmem
  | cons p t ih =>
    rcases p with ⟨k2, v2⟩
    simp only [List.map_cons, List.nodup_cons] at hnd
    obtain ⟨hnotin, hnd2⟩ := hnd
    rcases List.mem_cons.1 hmem with heq | hmem2
    · injection heq with ha hb
      subst ha
      subst hb
      simp [List.lookup]
    · have hk : (k == k2) = false := by
        refine beq_eq_false_iff_ne.mpr ?_
        rintro rfl
        exact hnotin (List.mem_map.2 ⟨(k, v), hmem2, rfl⟩)
      simp only [List.lookup, hk]
      exact ih hnd2 hmem2

/-- The table maps the syndrome of each enumerated pattern to the pattern. -/
theorem lut_lookup_self (e : List Nat) (he : e ∈ make3bitErrors) :
    DEFAULT_SYNDROME_LUT.lookup (syndrome e) = some e := by
  apply lookup_eq_some
  · rw [lut_keys]
    exact syndromes_nodup
  · exact List.mem_map.2 ⟨e, he, rfl⟩

/-- A successful table lookup returns an enumerated pattern whose syndrome
is the key. -/
theorem lut_lookup_sound (s e : List Nat)
    (h : DEFAULT_SYNDROME_LUT.lookup s = some e) :
    e ∈ make3bitErrors ∧ syndrome e = s := by
  have hmem := lookup_mem _ _ _ h
  simp only [DEFAULT_SYNDROME_LUT, List.mem_map] at hmem
  obtain ⟨e2, he2, heq⟩ := hmem
  injection heq with ha hb
  subst hb
  exact ⟨he2, ha⟩

/- ------------------------------------------------------------------ -/
/- Behaviour of decode_bits.                                           -/
/- ------------------------------------------------------------------ -/

/-- Codewords are 24 bits long. -/
theorem encode_length (m : List Nat) : (encode m).length = 24 := by
  have hGlen : ∀ r ∈ DEFAULT_G, r.length = 24 := by decide
  simp only [encode, vecMat, List.length_map]
  exact foldr_addv_length _ (zipWith_scale_lengths m DEFAULT_G hGlen)

/-- Codewords have bit entries. -/
theorem encode_isBits (m : List Nat) : IsBits (encode m) := by
  intro b hb
  simp only [encode, vecMat, List.mem_map] at hb
  obtain ⟨x, _, rfl⟩ := hb
  omega

/-- The syndrome of a corrupted codeword is the syndrome of the error. -/
theorem syndrome_corrupt (m e : List Nat) (hbm : IsBits m) (hlm : m.length = 12)
    (hle : e.length = 24) : syndrome (xorv (encode m) e) = syndrome e := by
  rw [syndrome_xorv _ _ (by rw [encode_length, hle]), syndrome_encode_zero m hbm hlm,
    xorv_zero_left (syndrome_isBits e) 12 (syndrome_length e)]

/-- Correction of every error of weight 1, 2 or 3: `decode_bits` recovers
the codeword and reports the weight of the injected error. -/
theorem decode_bits_correct_core (m e : List Nat) (hbm : IsBits m) (hlm : m.length = 12)
    (hbe : IsBits e) (hle : e.length = 24) (hw1 : 1 ≤ weight e) (hw3 : weight e ≤ 3) :
    decode_bits (xorv (encode m) e) = (some (encode m), weight e) := by
  have hsyn := syndrome_corrupt m e hbm hlm hle
  have hne := syndrome_ne_zero e hbe hle hw1 (by omega)
  have hmem : e ∈ make3bitErrors := (make3bitErrors_mem e).2 ⟨hbe, hle, hw3⟩
  have hlook := lut_lookup_self e hmem
  simp only [decode_bits, hsyn]
  rw [if_neg hne, hlook]
  simp only [xorv_xorv_self (encode_isBits m) hbe (by rw [encode_length, hle])]

/-- A weight-4 corruption is never looked up successfully: `decode_bits`
returns the uncorrectable sentinel. -/
theorem decode_bits_uncorrectable_core (m e : List Nat) (hbm : IsBits m)
    (hlm : m.length = 12) (hbe : IsBits e) (hle : e.length = 24) (hw : weight e = 4) :
    decode_bits (xorv (encode m) e) = (none, 4) := by
  have hsyn := syndrome_corrupt m e hbm hlm hle
  have hne := syndrome_ne_zero e hbe hle (by omega) (by omega)
  have hnone : DEFAULT_SYNDROME_LUT.lookup (syndrome e) = none := by
    cases hl : DEFAULT_SYNDROME_LUT.lookup (syndrome e) with
    | none => rfl
    | some e2 =>
      exfalso
      obtain ⟨hmem2, hs2⟩ := lut_lookup_sound _ _ hl
      obtain ⟨hb2, hl2, hw2⟩ := (make3bitErrors_mem e2).1 hmem2
      have heq : e = e2 := syndrome_inj e e2 hbe hb2 hle hl2 (by omega) hs2.symm
      rw [heq] at hw
      omega
  simp only [decode_bits, hsyn]
  rw [if_neg hne, hnone]

/-- The absent result always carries the error count 4. -/
theorem decode_bits_absent (u : List Nat) (h : (decode_bits u).1 = none) :
    (decode_bits u).2 = 4 := by
  simp only [decode_bits] at h ⊢
  by_cases hs : syndrome u = List.replicate 12 0
  · rw [if_pos hs] at h
    simp at h
  · rw [if_neg hs] at h ⊢
    cases hl : DEFAULT_SYNDROME_LUT.lookup (syndrome u) with
    | none => rfl
    | some e =>
      rw [hl] at h
      simp at h

/- ------------------------------------------------------------------ -/
/- Rendering and parsing of barcode strings.                           -/
/- ------------------------------------------------------------------ -/

/-- A rendered bit vector has one character per two bits. -/
theorem bitsToSeq_length (v : List Nat) : (bitsToSeq v).length = v.length / 2 := by
  induction v using bitsToSeq.induct with
  | case1 b1 b2 t ih =>
    simp only [bitsToSeq, List.length_cons, ih]
    omega
  | case2 v h =>
    cases v with
    | nil => rfl
    | cons a t =>
      cases t with
      | nil => simp [bitsToSeq]
      | cons c r => exact absurd rfl (h a c r)

/-- Parsing inverts rendering on even-length bit vectors. -/
theorem seqToBits_bitsToSeq (v : List Nat) (hb : IsBits v) (he : v.length % 2 = 0) :
    seqToBits (bitsToSeq v) = some v := by
  induction v using bitsToSeq.induct with
  | case1 b1 b2 t ih =>
    have h1 : b1 ≤ 1 := hb b1 (by simp)
    have h2 : b2 ≤ 1 := hb b2 (by simp)
    have hbt : IsBits t := fun z hz => hb z (by simp [hz])
    have het : t.length % 2 = 0 := by simp only [List.length_cons] at he; omega
    have ihx := ih hbt het
    rcases (by omega : b1 = 0 ∨ b1 = 1) with rfl | rfl <;>
      rcases (by omega : b2 = 0 ∨ b2 = 1) with rfl | rfl <;>
      simp [bitsToSeq, bitsToNt, seqToBits, ntToBits, ihx]
  | case2 v h =>
    cases v with
    | nil => rfl
    | cons a t =>
      cases t with
      | nil => simp at he
      | cons c r => exact absurd rfl (h a c r)

/-- An unmappable character makes the whole parse unmapped. -/
theorem seqToBits_none (s : List Char) (c : Char) (hc : c ∈ s) (hn : ntToBits c = none) :
    seqToBits s = none := by
  induction s with
  | nil => simp at hc
  | cons d t ih =>
    rcases List.mem_cons.1 hc with rfl | hc2
    · simp [seqToBits, hn]
    · have hrec := ih hc2
      cases h : ntToBits d with
      | none => simp [seqToBits, h]
      | some p =>
        rcases p with ⟨b1, b2⟩
        simp [seqToBits, h, hrec]

/-- Unfolding of `decode` on a well-formed 12-character barcode. -/
theorem decode_of_seqToBits (s : String) (u : List Nat) (hlen : s.length = 12)
    (hseq : seqToBits s.data = some u) :
    decode s = match decode_bits u with
      | (none, n) => Except.ok (none, n)
      | (some c, n) => Except.ok (some (String.mk (bitsToSeq c)), n) := by
  simp only [decode, hlen, hseq]
  simp

/- ------------------------------------------------------------------ -/
/- The format-layer validation.                                        -/
/- ------------------------------------------------------------------ -/

/-- Stripping is insensitive to one trailing newline. -/
theorem strip_core (d : List Char) :
    (((d ++ ['\n']).dropWhile pyIsSpace).reverse.dropWhile pyIsSpace).reverse =
    ((d.dropWhile pyIsSpace).reverse.dropWhile pyIsSpace).reverse := by
  have hnl : pyIsSpace '\n' = true := rfl
  induction d with
  | nil => rfl
  | cons c d ih =>
    by_cases hc : pyIsSpace c
    · simpa [List.dropWhile_cons, hc] using ih
    · simp only [List.cons_append, List.dropWhile_cons, hc, Bool.false_eq_true, if_false,
        List.reverse_cons, List.reverse_append]
      simp [List.dropWhile_append, List.dropWhile_cons, hnl]

/-- Stripping the raw first line (with its newline, as `readline` returns
it) equals stripping the newline-free first line. -/
theorem strip_readline (c : String) : pyStrip (readline c) = pyStrip (firstLine c) := by
  simp only [readline, firstLine, List.span_eq_take_drop]
  cases hdrop : c.data.dropWhile (fun x => decide (x ≠ '\n')) with
  | nil => rfl
  | cons a rest =>
    simp only [pyStrip]
    rw [strip_core]

/-- The column loop succeeds exactly when every required column is in the
header. -/
theorem checkColumns_ok (cols header : List String) :
    checkColumns cols header = Except.ok () ↔ ∀ c ∈ cols, c ∈ header := by
  induction cols with
  | nil => simp [checkColumns]
  | cons c rest ih =>
    simp only [checkColumns]
    by_cases hc : c ∈ header
    · rw [if_pos hc]
      simp only [List.mem_cons, ih]
      constructor
      · intro h z hz
        rcases hz with rfl | hz
        · exact hc
        · exact h z hz
      · intro h z hz
        exact h z (Or.inr hz)
    · rw [if_neg hc]
      constructor
      · intro h
        simp at h
      · intro h
        exact absurd (h c (by simp)) hc

/-- An accepted file is non-empty. -/
theorem validate_nonempty (content : String)
    (h : validateECDetails content = Except.ok ()) : content ≠ "" := by
  rintro rfl
  have hval : validateECDetails "" = Except.error "Failed to locate header." := rfl
  rw [hval] at h
  exact Except.noConfusion h

/-- Counting the enumeration: `vecsW k n` has `n.choose k` elements. -/
theorem vecsW_length : ∀ (n k : Nat), (vecsW k n).length = n.choose k := by
  intro n
  induction n with
  | zero =>
    intro k
    cases k <;> simp [vecsW]
  | succ n ih =>
    intro k
    cases k with
    | zero => simp [vecsW]
    | succ k =>
      simp only [vecsW, List.length_append, List.length_map, ih, Nat.choose_succ_succ,
        Nat.succ_eq_add_one]
      omega

/-- The enumeration has exactly 2325 = 1 + 24 + 276 + 2024 elements. -/
theorem make3bitErrors_length : make3bitErrors.length = 2325 := by
  simp only [make3bitErrors, List.length_append, vecsW_length]
  decide

/-- A character outside {A,C,G,T} is unmappable. -/
theorem ntToBits_eq_none (c : Char) (h : c ∉ (['A', 'C', 'G', 'T'] : List Char)) :
    ntToBits c = none := by
  simp only [List.mem_cons, List.not_mem_nil, or_false, not_or] at h
  unfold ntToBits
  split <;> simp_all

/- ------------------------------------------------------------------ -/
/- The claims.                                                         -/
/- ------------------------------------------------------------------ -/

/-- C1: for every 24-bit codeword `encode m` and every 24-bit error vector
`e` of Hamming weight 1, 2 or 3, `decode_bits` on the corrupted word
returns the original codeword together with the weight of the error. -/
theorem golay_corrects_weight_le3 (m e : List Nat) (hbm : IsBits m) (hlm : m.length = 12)
    (hbe : IsBits e) (hle : e.length = 24) (hw1 : 1 ≤ weight e) (hw3 : weight e ≤ 3) :
    decode_bits (xorv (encode m) e) = (some (encode m), weight e) :=
  decode_bits_correct_core m e hbm hlm hbe hle hw1 hw3

/-- Witness for C1: a single-bit error on a concrete codeword. -/
theorem golay_corrects_weight_le3_witness :
    decode_bits (xorv (encode [1,0,0,0,0,0,0,0,0,0,0,0])
        [0,1,0,0,0,0,0,0,0,0,0,0,0,0,0,0,0,0,0,0,0,0,0,0]) =
      (some (encode [1,0,0,0,0,0,0,0,0,0,0,0]),
        weight [0,1,0,0,0,0,0,0,0,0,0,0,0,0,0,0,0,0,0,0,0,0,0,0]) :=
  golay_corrects_weight_le3 [1,0,0,0,0,0,0,0,0,0,0,0]
    [0,1,0,0,0,0,0,0,0,0,0,0,0,0,0,0,0,0,0,0,0,0,0,0]
    (by decide) (by decide) (by decide) (by decide) (by decide) (by decide)

/-- C2: the enumeration of all 24-bit vectors of weight at most 3 has
exactly 2325 elements, no two distinct enumerated vectors share a
syndrome, the key column of the table is exactly the syndrome image of the
enumeration, and the enumeration contains precisely the 24-bit vectors of
weight at most 3. -/
theorem golay_syndrome_table_bijection :
    make3bitErrors.length = 2325 ∧
    (make3bitErrors.map syndrome).Nodup ∧
    DEFAULT_SYNDROME_LUT.map Prod.fst = make3bitErrors.map syndrome ∧
    (∀ v : List Nat, v ∈ make3bitErrors ↔ IsBits v ∧ v.length = 24 ∧ weight v ≤ 3) :=
  ⟨make3bitErrors_length, syndromes_nodup, lut_keys, make3bitErrors_mem⟩

/-- Witness for C2: a concrete weight-1 pattern is in the enumeration. -/
theorem golay_syndrome_table_bijection_witness :
    [0,0,0,0,0,0,0,0,0,0,0,0,0,0,0,0,0,0,0,0,0,0,0,1] ∈ make3bitErrors :=
  (golay_syndrome_table_bijection.2.2.2
    [0,0,0,0,0,0,0,0,0,0,0,0,0,0,0,0,0,0,0,0,0,0,0,1]).mpr (by decide)

/-- C3: encoding any of the 4096 possible 12-bit messages, rendering the
codeword as a barcode string and decoding it returns that same barcode
string with error count 0. -/
theorem golay_encode_decode_roundtrip (m : List Nat) (hb : IsBits m) (hl : m.length = 12) :
    decode (String.mk (bitsToSeq (encode m))) =
      Except.ok (some (String.mk (bitsToSeq (encode m))), 0) := by
  have hlen : (String.mk (bitsToSeq (encode m))).length = 12 := by
    show (bitsToSeq (encode m)).length = 12
    rw [bitsToSeq_length, encode_length]
  have hseq : seqToBits (String.mk (bitsToSeq (encode m))).data = some (encode m) := by
    show seqToBits (bitsToSeq (encode m)) = some (encode m)
    exact seqToBits_bitsToSeq _ (encode_isBits m) (by rw [encode_length])
  rw [decode_of_seqToBits _ _ hlen hseq]
  have hz : decode_bits (encode m) = (some (encode m), 0) := by
    simp [decode_bits, syndrome_encode_zero m hb hl]
  rw [hz]

/-- Witness for C3: the round trip at a concrete message. -/
theorem golay_encode_decode_roundtrip_witness :
    decode (String.mk (bitsToSeq (encode [1,0,0,0,0,0,0,0,0,0,0,0]))) =
      Except.ok (some (String.mk (bitsToSeq (encode [1,0,0,0,0,0,0,0,0,0,0,0]))), 0) :=
  golay_encode_decode_roundtrip [1,0,0,0,0,0,0,0,0,0,0,0] (by decide) (by decide)

/-- C4: every row of `G` is orthogonal mod 2 to every row of `H` (this is
`G · Hᵗ mod 2 = 0` entry by entry), so every codeword `encode m` has zero
syndrome. -/
theorem golay_G_H_orthogonal :
    (∀ gr ∈ DEFAULT_G, ∀ hr ∈ DEFAULT_H, dot gr hr % 2 = 0) ∧
    (∀ m : List Nat, IsBits m → m.length = 12 →
      syndrome (encode m) = List.replicate 12 0) :=
  ⟨by decide, syndrome_encode_zero⟩

/-- Witness for C4: orthogonality of the first rows and the zero syndrome
of a concrete codeword. -/
theorem golay_G_H_orthogonal_witness :
    dot [1,0,0,0,0,0,0,0,0,0,0,0,0,1,1,1,1,1,1,1,1,1,1,1]
        [0,1,1,1,1,1,1,1,1,1,1,1,1,0,0,0,0,0,0,0,0,0,0,0] % 2 = 0 ∧
    syndrome (encode [1,0,0,0,0,0,0,0,0,0,0,0]) = List.replicate 12 0 :=
  ⟨golay_G_H_orthogonal.1 [1,0,0,0,0,0,0,0,0,0,0,0,0,1,1,1,1,1,1,1,1,1,1,1] (by decide)
      [0,1,1,1,1,1,1,1,1,1,1,1,1,0,0,0,0,0,0,0,0,0,0,0] (by decide),
    golay_G_H_orthogonal.2 [1,0,0,0,0,0,0,0,0,0,0,0] (by decide) (by decide)⟩

/-- C5: decoding any string whose length is not 12 fails with a
length-mismatch error whose message ends with the literal observed length,
as in "length 8nt.". -/
theorem golay_decode_length_error (s : String) (h : s.length ≠ 12) :
    ∃ msg, decode s = Except.error msg ∧
      ("length " ++ toString s.length ++ "nt.").data <:+ msg.data := by
  refine ⟨"Golay decoding requires 12nt barcodes. The barcode attempting to be decoded (" ++
      s ++ ") is of " ++ "length " ++ toString s.length ++ "nt.", ?_, ?_⟩
  · simp only [decode, if_pos h]
  · refine ⟨("Golay decoding requires 12nt barcodes. The barcode attempting to be decoded (" ++
      s ++ ") is of ").data, ?_⟩
    simp [String.data_append, List.append_assoc]

/-- Witness for C5: the concrete 8-character barcode of the test suite. -/
theorem golay_decode_length_error_witness :
    ∃ msg, decode "ACGGTGAG" = Except.error msg ∧
      ("length 8nt." : String).data <:+ msg.data := by
  obtain ⟨msg, h1, h2⟩ := golay_decode_length_error "ACGGTGAG" (by decide)
  rw [show ("length " ++ toString (String.length "ACGGTGAG") ++ "nt.") = ("length 8nt." : String)
    from by decide] at h2
  exact ⟨msg, h1, h2⟩

/-- C6: decoding a 12-character barcode containing a character outside
{A,C,G,T} does not fail: it returns the uncorrectable result `(none, 4)`
(and, by construction of `decode`, without consulting the syndrome
table). -/
theorem golay_decode_unmappable (s : String) (hlen : s.length = 12)
    (h : ∃ c ∈ s.data, c ∉ (['A', 'C', 'G', 'T'] : List Char)) :
    decode s = Except.ok (none, 4) := by
  obtain ⟨c, hc, hn⟩ := h
  have hseq := seqToBits_none s.data c hc (ntToBits_eq_none c hn)
  simp only [decode, hlen, hseq]
  simp

/-- Witness for C6: the concrete all-invalid barcode of the test suite. -/
theorem golay_decode_unmappable_witness :
    decode "XYZXYZXYZXYZ" = Except.ok (none, 4) :=
  golay_decode_unmappable "XYZXYZXYZXYZ" (by decide) ⟨'X', by decide, by decide⟩

/-- C7: a weight-4 corruption of any codeword is uncorrectable: both
`decode_bits` and `decode` return the sentinel `(none, 4)` and never a
spurious correction; moreover whenever the corrected component is absent
the reported count is exactly 4. -/
theorem golay_weight4_uncorrectable :
    (∀ m e : List Nat, IsBits m → m.length = 12 → IsBits e → e.length = 24 →
      weight e = 4 → decode_bits (xorv (encode m) e) = (none, 4)) ∧
    (∀ (s : String) (m e : List Nat), s.length = 12 → IsBits m → m.length = 12 →
      IsBits e → e.length = 24 → weight e = 4 →
      seqToBits s.data = some (xorv (encode m) e) → decode s = Except.ok (none, 4)) ∧
    (∀ u : List Nat, (decode_bits u).1 = none → (decode_bits u).2 = 4) := by
  refine ⟨fun m e hbm hlm hbe hle hw =>
    decode_bits_uncorrectable_core m e hbm hlm hbe hle hw, ?_, decode_bits_absent⟩
  intro s m e hs hbm hlm hbe hle hw hseq
  rw [decode_of_seqToBits s _ hs hseq,
    decode_bits_uncorrectable_core m e hbm hlm hbe hle hw]

/-- Witness for C7: a double nucleotide substitution flipping 4 bits of a
concrete codeword, at the bit and string levels. -/
theorem golay_weight4_uncorrectable_witness :
    decode_bits (xorv (encode [1,1,1,1,0,0,0,1,0,0,1,1])
        [1,1,1,1,0,0,0,0,0,0,0,0,0,0,0,0,0,0,0,0,0,0,0,0]) = (none, 4) ∧
    decode "CCCGCACGCTAG" = Except.ok (none, 4) :=
  ⟨golay_weight4_uncorrectable.1 [1,1,1,1,0,0,0,1,0,0,1,1]
      [1,1,1,1,0,0,0,0,0,0,0,0,0,0,0,0,0,0,0,0,0,0,0,0]
      (by decide) (by decide) (by decide) (by decide) (by decide),
    golay_weight4_uncorrectable.2.1 "CCCGCACGCTAG" [1,1,1,1,0,0,0,1,0,0,1,1]
      [1,1,1,1,0,0,0,0,0,0,0,0,0,0,0,0,0,0,0,0,0,0,0,0]
      (by decide) (by decide) (by decide) (by decide) (by decide) (by decide) (by decide)⟩

set_option maxHeartbeats 16000000 in
set_option maxRecDepth 100000 in
/-- C8: the three concrete decode results fixed by the test suite hold
under the modelled codon assignment. -/
theorem golay_decode_concrete :
    decode "GCATCGTCCACA" = Except.ok (some "GCATCGTCAACA", 2) ∧
    decode "AGCACGAGCCTA" = Except.ok (some "AGCACGAGCCTA", 0) ∧
    decode "CGCACGAGCCTA" = Except.ok (some "AGCACGAGCCTA", 2) :=
  ⟨rfl, rfl, rfl⟩

/-- C9: validation of an error-correction-details file succeeds exactly
when the stripped first line is non-blank and, split on tabs, contains
every required metadata column; an accepted file is in particular
non-empty. -/
theorem ecdetails_validate_iff (content : String) :
    (validateECDetails content = Except.ok () ↔
      (pyStrip (readline content)).length ≠ 0 ∧
      ∀ col ∈ METADATA_COLUMNS, col ∈ splitTab (pyStrip (readline content))) ∧
    (validateECDetails content = Except.ok () → content ≠ "") := by
  refine ⟨?_, validate_nonempty content⟩
  simp only [validateECDetails]
  by_cases h0 : (pyStrip (readline content)).length = 0
  · rw [if_pos h0]
    constructor
    · intro h
      simp at h
    · rintro ⟨hne, _⟩
      exact absurd h0 hne
  · rw [if_neg h0]
    rw [checkColumns_ok]
    exact ⟨fun h => ⟨h0, h⟩, fun h => h.2⟩

/-- Witness for C9: a concrete well-formed header is accepted. -/
theorem ecdetails_validate_iff_witness :
    validateECDetails
      "sample\tbarcode-sequence-id\tbarcode-uncorrected\tbarcode-corrected\tbarcode-errors\nrow1" =
      Except.ok () ∧
    ("sample\tbarcode-sequence-id\tbarcode-uncorrected\tbarcode-corrected\tbarcode-errors\nrow1" : String) ≠ "" := by
  have h := ecdetails_validate_iff
    "sample\tbarcode-sequence-id\tbarcode-uncorrected\tbarcode-corrected\tbarcode-errors\nrow1"
  have hok := h.1.mpr (by decide)
  exact ⟨hok, h.2 hok⟩

/-- C10: validation depends only on the file's first line: two contents
with the same first line validate identically, whatever follows. -/
theorem ecdetails_validate_firstline_only (c1 c2 : String) (h : firstLine c1 = firstLine c2) :
    validateECDetails c1 = validateECDetails c2 := by
  simp only [validateECDetails]
  rw [strip_readline c1, strip_readline c2, h]

/-- Witness for C10: a well-formed tail and a malformed tail after the
same header validate identically. -/
theorem ecdetails_validate_firstline_only_witness :
    validateECDetails "sample\nrow1\trow2" = validateECDetails "sample\n\t\t##garbage" :=
  ecdetails_validate_firstline_only "sample\nrow1\trow2" "sample\n\t\t##garbage" (by decide)
